import Mathlib

/-!
Shallow embedding of the metal-warehouse coil repository (src/app/functions.py,
src/app/repository.py).  Timestamps are modelled as integers (microseconds since
the epoch), Python floats as rationals.  Python operations that can raise
(division by zero, `max`/`min` of an empty list) are modelled as `Option`;
SQL aggregates over an empty row set are `Option` as well (NULL = `none`).
-/

/-- One calendar day (`timedelta(days=1)`) in microseconds. -/
def DAY : Int := 86400000000

/-- A coil record (src/app/models.py `Coil`). -/
structure Coil where
  id : Int
  length : ℚ
  weight : ℚ
  date_added : Int
  date_removed : Option Int
  deriving DecidableEq, Repr

/-- The statistics record (src/app/schemas.py `CoilStats`). -/
structure CoilStats where
  added_count : Nat
  removed_count : Nat
  avg_length : Option ℚ
  avg_weight : Option ℚ
  max_length : Option ℚ
  min_length : Option ℚ
  max_weight : Option ℚ
  min_weight : Option ℚ
  total_weight : Option ℚ
  max_time_diff : Option ℚ
  min_time_diff : Option ℚ
  day_max_count : Option Int
  day_min_count : Option Int
  day_max_weight : Option Int
  day_min_weight : Option Int
  deriving DecidableEq, Repr

/-- One entry of the `days_stats` list built by both statistics implementations. -/
structure DayStat where
  date : Int
  count : Nat
  weight : ℚ
  deriving DecidableEq, Repr

/-- Python `sum` over a list of floats (left fold starting at 0). -/
def pySum (l : List ℚ) : ℚ := l.foldl (· + ·) 0

/-- Python float division `a / n` for a list length `n`; raises on `n = 0`. -/
def pyDiv (a : ℚ) (n : Nat) : Option ℚ :=
  if n = 0 then none else some (a / (n : ℚ))

/-- Python `max` over a list of floats; raises (`none`) on the empty list.
Also models SQL `MAX` (NULL on an empty row set). -/
def pyMax (l : List ℚ) : Option ℚ :=
  match l with
  | [] => none
  | x :: xs => some (xs.foldl (fun b a => if b < a then a else b) x)

/-- Python `min` over a list of floats; raises (`none`) on the empty list.
Also models SQL `MIN`. -/
def pyMin (l : List ℚ) : Option ℚ :=
  match l with
  | [] => none
  | x :: xs => some (xs.foldl (fun b a => if a < b then a else b) x)

/-- The running-best fold of Python `max(l, key=k)`: the best is replaced only
when the new key is strictly greater. -/
def foldMaxBy {α : Type} {β : Type} [LinearOrder β] (k : α → β) (x : α) (xs : List α) : α :=
  xs.foldl (fun b a => if k b < k a then a else b) x

/-- The running-best fold of Python `min(l, key=k)`. -/
def foldMinBy {α : Type} {β : Type} [LinearOrder β] (k : α → β) (x : α) (xs : List α) : α :=
  xs.foldl (fun b a => if k a < k b then a else b) x

/-- Python `max(l, key=k)`: the first element with maximal key (the running best
is replaced only on a strictly greater key). -/
def pyMaxBy {α : Type} {β : Type} [LinearOrder β] (k : α → β) (l : List α) : Option α :=
  match l with
  | [] => none
  | x :: xs => some (foldMaxBy k x xs)

/-- Python `min(l, key=k)`: the first element with minimal key. -/
def pyMinBy {α : Type} {β : Type} [LinearOrder β] (k : α → β) (l : List α) : Option α :=
  match l with
  | [] => none
  | x :: xs => some (foldMinBy k x xs)

/-- SQL `SUM` over a column: NULL (`none`) when there are no rows. -/
def sqlSum (l : List ℚ) : Option ℚ :=
  match l with
  | [] => none
  | x :: xs => some (pySum (x :: xs))

/-- SQL `AVG` over a column: NULL when there are no rows, else the exact mean. -/
def sqlAvg (l : List ℚ) : Option ℚ :=
  match l with
  | [] => none
  | x :: xs => some (pySum (x :: xs) / (((x :: xs).length : ℚ)))

/-- `date_added BETWEEN start AND end` / `start <= c.date_added <= end`. -/
def addedInWindow (s e : Int) (c : Coil) : Bool :=
  decide (s ≤ c.date_added) && decide (c.date_added ≤ e)

/-- `c.date_removed` present and inside `[s, e]` (SQL `BETWEEN` on a NULL is false,
Python guards with a truthiness test first). -/
def removedInWindow (s e : Int) (c : Coil) : Bool :=
  match c.date_removed with
  | some r => decide (s ≤ r) && decide (r ≤ e)
  | none => false

/-- The three-way OR of `InMemoryCoilRepository.get_statistics` selecting the
relevant coils (repository.py lines 175-190). -/
def isRelevant (s e : Int) (c : Coil) : Bool :=
  (decide (s ≤ c.date_added) && decide (c.date_added ≤ e))
  || removedInWindow s e c
  || (decide (c.date_added ≤ e) &&
      (match c.date_removed with
       | none => true
       | some r => decide (s ≤ r)))

/-- The three-way `or_` of `functions.get_statistics` (functions.py lines 117-129);
only the order of the inner disjunction differs from the in-memory variant. -/
def sqlIsRelevant (s e : Int) (c : Coil) : Bool :=
  addedInWindow s e c
  || removedInWindow s e c
  || (decide (c.date_added ≤ e) &&
      ((match c.date_removed with
        | some r => decide (s ≤ r)
        | none => false)
       || c.date_removed.isNone))

/-- The coil is active at instant `d`: `date_added <= d` and
(`date_removed` absent or `date_removed > d`) — repository.py lines 232-237. -/
def isActiveAt (d : Int) (c : Coil) : Bool :=
  decide (c.date_added ≤ d) &&
    (match c.date_removed with
     | none => true
     | some r => decide (d < r))

/-- The same active-at-`d` filter as written in the SQL day loop
(functions.py lines 164-170): the disjunction arms are swapped. -/
def sqlIsActiveAt (d : Int) (c : Coil) : Bool :=
  decide (c.date_added ≤ d) &&
    ((match c.date_removed with
      | some r => decide (d < r)
      | none => false)
     || c.date_removed.isNone)

/-- `relevant_coils` of the in-memory implementation. -/
def relevantCoils (coils : List Coil) (s e : Int) : List Coil :=
  coils.filter (isRelevant s e)

/-- `added_count`: coils whose `date_added` lies in `[s, e]`. -/
def addedCount (coils : List Coil) (s e : Int) : Nat :=
  (coils.filter (addedInWindow s e)).length

/-- `removed_count`: coils whose `date_removed` is present and lies in `[s, e]`. -/
def removedCount (coils : List Coil) (s e : Int) : Nat :=
  (coils.filter (removedInWindow s e)).length

/-- `start_date.replace(hour=0, minute=0, second=0, microsecond=0)`: floor to the
start of the calendar day. -/
def truncDay (t : Int) : Int := t - Int.fmod t DAY

/-- The `while current_date <= end_date` day loop: the list of days visited,
stepping by exactly one day and comparing against the untruncated end. -/
def dayList (cur e : Int) : List Int :=
  if h : cur ≤ e then cur :: dayList (cur + DAY) e else []
termination_by (e + DAY - cur).toNat
decreasing_by simp only [DAY] at *; omega

/-- `(c.date_removed - c.date_added).total_seconds()` /
`extract(epoch, date_removed) - extract(epoch, date_added)`, in seconds. -/
def timeDiffSecs (c : Coil) (r : Int) : ℚ := ((r - c.date_added : Int) : ℚ) / 1000000

/-- The `days_stats` list of the in-memory implementation
(repository.py lines 229-245). -/
def InMemoryCoilRepository.daysStats (coils : List Coil) (s e : Int) : List DayStat :=
  (dayList (truncDay s) e).map fun d =>
    { date := d
      count := (coils.filter (isActiveAt d)).length
      weight := pySum ((coils.filter (isActiveAt d)).map Coil.weight) }

/-- The `days_stats` list of the SQL implementation (functions.py lines 159-191):
the weight is `SUM(weight)` with NULL replaced by `0.0`. -/
def Functions.daysStats (coils : List Coil) (s e : Int) : List DayStat :=
  (dayList (truncDay s) e).map fun d =>
    { date := d
      count := (coils.filter (sqlIsActiveAt d)).length
      weight := (sqlSum ((coils.filter (sqlIsActiveAt d)).map Coil.weight)).getD 0 }

/-- `InMemoryCoilRepository.get_statistics` (repository.py lines 163-276).
Python operations that can raise are `Option`-valued, so a `none` result
would mean the original code raises an exception. -/
def InMemoryCoilRepository.get_statistics (coils : List Coil) (s e : Int) :
    Option CoilStats :=
  let added := addedCount coils s e
  let removed := removedCount coils s e
  match relevantCoils coils s e with
  | [] =>
    some { added_count := added, removed_count := removed,
           avg_length := none, avg_weight := none,
           max_length := none, min_length := none,
           max_weight := none, min_weight := none,
           total_weight := none, max_time_diff := none, min_time_diff := none,
           day_max_count := none, day_min_count := none,
           day_max_weight := none, day_min_weight := none }
  | r :: rs =>
    let lengths := (r :: rs).map Coil.length
    let weights := (r :: rs).map Coil.weight
    let tdiffs := (r :: rs).filterMap fun c => c.date_removed.map (timeDiffSecs c)
    let ds := InMemoryCoilRepository.daysStats coils s e
    (pyDiv (pySum lengths) lengths.length).bind fun avgL =>
    (pyDiv (pySum weights) weights.length).bind fun avgW =>
    (pyMax lengths).bind fun maxL =>
    (pyMin lengths).bind fun minL =>
    (pyMax weights).bind fun maxW =>
    (pyMin weights).bind fun minW =>
    some { added_count := added, removed_count := removed,
           avg_length := some avgL, avg_weight := some avgW,
           max_length := some maxL, min_length := some minL,
           max_weight := some maxW, min_weight := some minW,
           total_weight := some (pySum weights),
           max_time_diff := pyMax tdiffs, min_time_diff := pyMin tdiffs,
           day_max_count := (pyMaxBy DayStat.count ds).map DayStat.date,
           day_min_count := (pyMinBy DayStat.count ds).map DayStat.date,
           day_max_weight := (pyMaxBy DayStat.weight ds).map DayStat.date,
           day_min_weight := (pyMinBy DayStat.weight ds).map DayStat.date }

/-- `functions.get_statistics` (functions.py lines 92-236), the SQL-backed path.
SQL aggregates never raise: an empty row set yields NULLs, and the aggregate
`SELECT` always returns one row (so the `time_diff` row is always truthy).
The `time_diff` query filters on `date_removed IS NOT NULL` and
`date_added BETWEEN start AND end` (functions.py lines 152-155). -/
def Functions.get_statistics (coils : List Coil) (s e : Int) : CoilStats :=
  let added := addedCount coils s e
  let removed := removedCount coils s e
  let relevant := coils.filter (sqlIsRelevant s e)
  let lengths := relevant.map Coil.length
  let weights := relevant.map Coil.weight
  let tdiffs := (coils.filter fun c => c.date_removed.isSome && addedInWindow s e c).filterMap
      fun c => c.date_removed.map (timeDiffSecs c)
  let ds := Functions.daysStats coils s e
  if added = 0 then
    { added_count := 0, removed_count := 0,
      avg_length := none, avg_weight := none,
      max_length := none, min_length := none,
      max_weight := none, min_weight := none,
      total_weight := none, max_time_diff := none, min_time_diff := none,
      day_max_count := none, day_min_count := none,
      day_max_weight := none, day_min_weight := none }
  else
    { added_count := added, removed_count := removed,
      avg_length := sqlAvg lengths, avg_weight := sqlAvg weights,
      max_length := pyMax lengths, min_length := pyMin lengths,
      max_weight := pyMax weights, min_weight := pyMin weights,
      total_weight := sqlSum weights,
      max_time_diff := pyMax tdiffs, min_time_diff := pyMin tdiffs,
      day_max_count := (pyMaxBy DayStat.count ds).map DayStat.date,
      day_min_count := (pyMinBy DayStat.count ds).map DayStat.date,
      day_max_weight := (pyMaxBy DayStat.weight ds).map DayStat.date,
      day_min_weight := (pyMinBy DayStat.weight ds).map DayStat.date }

/-- `InMemoryCoilRepository.remove_coil` (repository.py lines 101-119): scan for
the first coil with the given id that is still active, set its `date_removed`
to the supplied timestamp (or `now`), and return it; otherwise return `None`
leaving the list unchanged.  Returns the result and the updated coil list. -/
def InMemoryCoilRepository.remove_coil (coils : List Coil) (cid : Int)
    (dropt : Option Int) (now : Int) : Option Coil × List Coil :=
  match coils with
  | [] => (none, [])
  | c :: rest =>
    if c.id = cid ∧ c.date_removed = none then
      let c2 := { c with date_removed := some (dropt.getD now) }
      (some c2, c2 :: rest)
    else
      let p := InMemoryCoilRepository.remove_coil rest cid dropt now
      (p.1, c :: p.2)

/-- `functions.remove_coil` (functions.py lines 27-43): fetch the first coil with
the given id; if it exists and is active, set `date_removed = now` and return
it, else return `None`. -/
def Functions.remove_coil (coils : List Coil) (cid : Int) (now : Int) :
    Option Coil × List Coil :=
  match coils with
  | [] => (none, [])
  | c :: rest =>
    if c.id = cid then
      if c.date_removed = none then
        let c2 := { c with date_removed := some now }
        (some c2, c2 :: rest)
      else (none, c :: rest)
    else
      let p := Functions.remove_coil rest cid now
      (p.1, c :: p.2)

/-- `InMemoryCoilRepository.get_coils` (repository.py lines 121-161): the five
optional inclusive range filters applied in sequence. -/
def InMemoryCoilRepository.get_coils (coils : List Coil)
    (id_range : Option (Int × Int)) (weight_range : Option (ℚ × ℚ))
    (length_range : Option (ℚ × ℚ)) (date_added_range : Option (Int × Int))
    (date_removed_range : Option (Int × Int)) : List Coil :=
  let r0 := coils
  let r1 := match id_range with
    | some (a, b) => r0.filter fun c => decide (a ≤ c.id) && decide (c.id ≤ b)
    | none => r0
  let r2 := match weight_range with
    | some (a, b) => r1.filter fun c => decide (a ≤ c.weight) && decide (c.weight ≤ b)
    | none => r1
  let r3 := match length_range with
    | some (a, b) => r2.filter fun c => decide (a ≤ c.length) && decide (c.length ≤ b)
    | none => r2
  let r4 := match date_added_range with
    | some (a, b) => r3.filter fun c => decide (a ≤ c.date_added) && decide (c.date_added ≤ b)
    | none => r3
  let r5 := match date_removed_range with
    | some (a, b) => r4.filter fun c =>
        match c.date_removed with
        | some d => decide (a ≤ d) && decide (d ≤ b)
        | none => false
    | none => r4
  r5

/-- `functions.get_coils` (functions.py lines 46-89): conjunctively composed
`BETWEEN` filters on the query; a NULL `date_removed` never satisfies
`BETWEEN`. -/
def Functions.get_coils (coils : List Coil)
    (id_range : Option (Int × Int)) (weight_range : Option (ℚ × ℚ))
    (length_range : Option (ℚ × ℚ)) (date_added_range : Option (Int × Int))
    (date_removed_range : Option (Int × Int)) : List Coil :=
  let q0 := coils
  let q1 := match id_range with
    | some (a, b) => q0.filter fun c => decide (a ≤ c.id) && decide (c.id ≤ b)
    | none => q0
  let q2 := match weight_range with
    | some (a, b) => q1.filter fun c => decide (a ≤ c.weight) && decide (c.weight ≤ b)
    | none => q1
  let q3 := match length_range with
    | some (a, b) => q2.filter fun c => decide (a ≤ c.length) && decide (c.length ≤ b)
    | none => q2
  let q4 := match date_added_range with
    | some (a, b) => q3.filter fun c => decide (a ≤ c.date_added) && decide (c.date_added ≤ b)
    | none => q3
  let q5 := match date_removed_range with
    | some (a, b) => q4.filter fun c =>
        match c.date_removed with
        | some d => decide (a ≤ d) && decide (d ≤ b)
        | none => false
    | none => q4
  q5

/-- The in-memory repository state: the next id to assign and the stored coils. -/
structure RepoState where
  nextId : Int
  coils : List Coil
  deriving Repr

/-- `InMemoryCoilRepository.create_coil` (repository.py lines 81-99): append a
fresh active coil with the next id and `date_added = now`. -/
def createOp (st : RepoState) (len wt : ℚ) (now : Int) : RepoState :=
  { nextId := st.nextId + 1
    coils := st.coils ++
      [{ id := st.nextId, length := len, weight := wt,
         date_added := now, date_removed := none }] }

/-- One `remove_coil` call on the repository state. -/
def removeOp (st : RepoState) (cid : Int) (dropt : Option Int) (now : Int) : RepoState :=
  { st with coils := (InMemoryCoilRepository.remove_coil st.coils cid dropt now).2 }

/-- States reachable from a fresh repository by create and remove operations,
with arbitrary timestamps (remove may supply an explicit removal timestamp). -/
inductive Reachable : RepoState → Prop
  | init : Reachable { nextId := 1, coils := [] }
  | create (st : RepoState) (len wt : ℚ) (now : Int) :
      Reachable st → Reachable (createOp st len wt now)
  | remove (st : RepoState) (cid : Int) (dropt : Option Int) (now : Int) :
      Reachable st → Reachable (removeOp st cid dropt now)

/-- Reachability restricted to well-timed removals: the effective removal
timestamp is never earlier than the `date_added` of the coil being removed. -/
inductive ReachableOK : RepoState → Prop
  | init : ReachableOK { nextId := 1, coils := [] }
  | create (st : RepoState) (len wt : ℚ) (now : Int) :
      ReachableOK st → ReachableOK (createOp st len wt now)
  | remove (st : RepoState) (cid : Int) (dropt : Option Int) (now : Int) :
      ReachableOK st →
      (∀ c ∈ st.coils, c.id = cid → c.date_removed = none →
        c.date_added ≤ dropt.getD now) →
      ReachableOK (removeOp st cid dropt now)

/-- The distinguished empty result returned by the SQL path when
`added_count == 0` (functions.py lines 201-218): both counts zero, every other
field absent. -/
def emptyStats : CoilStats :=
  { added_count := 0, removed_count := 0,
    avg_length := none, avg_weight := none,
    max_length := none, min_length := none,
    max_weight := none, min_weight := none,
    total_weight := none, max_time_diff := none, min_time_diff := none,
    day_max_count := none, day_min_count := none,
    day_max_weight := none, day_min_weight := none }

/-- `x` is the first element of `l` achieving the maximal key `k`: everything
before it is strictly smaller, everything in `l` is at most it. -/
def FirstMaxBy {α β : Type} [LinearOrder β] (k : α → β) (l : List α) (x : α) : Prop :=
  ∃ l₁ l₂, l = l₁ ++ x :: l₂ ∧ (∀ y ∈ l₁, k y < k x) ∧ ∀ y ∈ l, k y ≤ k x

/-- `x` is the first element of `l` achieving the minimal key `k`. -/
def FirstMinBy {α β : Type} [LinearOrder β] (k : α → β) (l : List α) (x : α) : Prop :=
  ∃ l₁ l₂, l = l₁ ++ x :: l₂ ∧ (∀ y ∈ l₁, k x < k y) ∧ ∀ y ∈ l, k x ≤ k y

/-- The aggregate contract over the relevant set: both implementations select
the same relevant set, and on it the in-memory statistics report the exact
arithmetic means, extrema and total weight, with the SQL-backed statistics
agreeing on all seven magnitude fields. -/
def AggregatesSpec (coils : List Coil) (s e : Int) : Prop :=
  relevantCoils coils s e ≠ [] ∧
  coils.filter (sqlIsRelevant s e) = relevantCoils coils s e ∧
  ∃ st, InMemoryCoilRepository.get_statistics coils s e = some st ∧
    st.avg_length = some (((relevantCoils coils s e).map Coil.length).sum /
      ((((relevantCoils coils s e).map Coil.length).length : ℚ))) ∧
    st.avg_weight = some (((relevantCoils coils s e).map Coil.weight).sum /
      ((((relevantCoils coils s e).map Coil.weight).length : ℚ))) ∧
    (∃ m, st.max_length = some m ∧ m ∈ (relevantCoils coils s e).map Coil.length ∧
      ∀ y ∈ (relevantCoils coils s e).map Coil.length, y ≤ m) ∧
    (∃ m, st.min_length = some m ∧ m ∈ (relevantCoils coils s e).map Coil.length ∧
      ∀ y ∈ (relevantCoils coils s e).map Coil.length, m ≤ y) ∧
    (∃ m, st.max_weight = some m ∧ m ∈ (relevantCoils coils s e).map Coil.weight ∧
      ∀ y ∈ (relevantCoils coils s e).map Coil.weight, y ≤ m) ∧
    (∃ m, st.min_weight = some m ∧ m ∈ (relevantCoils coils s e).map Coil.weight ∧
      ∀ y ∈ (relevantCoils coils s e).map Coil.weight, m ≤ y) ∧
    st.total_weight = some ((relevantCoils coils s e).map Coil.weight).sum ∧
    (Functions.get_statistics coils s e).avg_length = st.avg_length ∧
    (Functions.get_statistics coils s e).avg_weight = st.avg_weight ∧
    (Functions.get_statistics coils s e).max_length = st.max_length ∧
    (Functions.get_statistics coils s e).min_length = st.min_length ∧
    (Functions.get_statistics coils s e).max_weight = st.max_weight ∧
    (Functions.get_statistics coils s e).min_weight = st.min_weight ∧
    (Functions.get_statistics coils s e).total_weight = st.total_weight

/-- The daily-series contract: both implementations build the same series;
its dates are exactly the days from `start` truncated to midnight, stepping
one day, up through the untruncated `end`; the truncation really is the
midnight of the start day; each entry counts the coils of the whole
collection active at that instant and sums their weights. -/
def DaySeriesSpec (coils : List Coil) (s e : Int) : Prop :=
  Functions.daysStats coils s e = InMemoryCoilRepository.daysStats coils s e ∧
  (InMemoryCoilRepository.daysStats coils s e).map DayStat.date = dayList (truncDay s) e ∧
  (∃ m : Int, truncDay s = DAY * m) ∧ truncDay s ≤ s ∧ s < truncDay s + DAY ∧
  (∀ d : Int, d ∈ dayList (truncDay s) e ↔ ∃ k : ℕ, d = truncDay s + DAY * k ∧ d ≤ e) ∧
  InMemoryCoilRepository.daysStats coils s e ≠ [] ∧
  (∀ x ∈ InMemoryCoilRepository.daysStats coils s e,
    x.count = (coils.filter (isActiveAt x.date)).length ∧
    x.weight = ((coils.filter (isActiveAt x.date)).map Coil.weight).sum) ∧
  (∀ d : Int, ∀ c : Coil, isActiveAt d c = true ↔
    (c.date_added ≤ d ∧ ∀ rm : Int, c.date_removed = some rm → d < rm))

/-- The day-optimum contract: each of the four day fields names the date of
the first entry of the day series achieving the optimum, in both
implementations. -/
def DayOptimumSpec (coils : List Coil) (s e : Int) : Prop :=
  ∃ st, InMemoryCoilRepository.get_statistics coils s e = some st ∧
    (∃ x, FirstMaxBy DayStat.count (InMemoryCoilRepository.daysStats coils s e) x ∧
      st.day_max_count = some x.date ∧
      (Functions.get_statistics coils s e).day_max_count = some x.date) ∧
    (∃ x, FirstMinBy DayStat.count (InMemoryCoilRepository.daysStats coils s e) x ∧
      st.day_min_count = some x.date ∧
      (Functions.get_statistics coils s e).day_min_count = some x.date) ∧
    (∃ x, FirstMaxBy DayStat.weight (InMemoryCoilRepository.daysStats coils s e) x ∧
      st.day_max_weight = some x.date ∧
      (Functions.get_statistics coils s e).day_max_weight = some x.date) ∧
    (∃ x, FirstMinBy DayStat.weight (InMemoryCoilRepository.daysStats coils s e) x ∧
      st.day_min_weight = some x.date ∧
      (Functions.get_statistics coils s e).day_min_weight = some x.date)

/-- Each removal step rewrites the coil list pointwise: every coil is either
untouched or is the matching active coil with only `date_removed` newly set. -/
def RemoveStepShape (coils : List Coil) (cid : Int) (dropt : Option Int) (now : Int) : Prop :=
  List.Forall₂ (fun c c2 => c2 = c ∨
      (c.id = cid ∧ c.date_removed = none ∧
       c2 = { c with date_removed := some (dropt.getD now) }))
    coils (InMemoryCoilRepository.remove_coil coils cid dropt now).2

/-- The remove contract: a successful removal returns exactly the matching
active coil with `date_removed` newly set; the result is `None` precisely when
no active coil with the id exists; a `None` result leaves the state unchanged;
a second removal of the same id always returns `None`; and the SQL-backed
removal agrees with the in-memory one (with no explicit timestamp). -/
def RemoveSpec (coils : List Coil) (cid : Int) (dropt : Option Int)
    (now : Int) (dropt2 : Option Int) (now2 : Int) : Prop :=
  (∀ c, (InMemoryCoilRepository.remove_coil coils cid dropt now).1 = some c →
    c.id = cid ∧ c.date_removed = some (dropt.getD now) ∧
    ∃ c0 ∈ coils, c0.id = cid ∧ c0.date_removed = none ∧
      c = { c0 with date_removed := some (dropt.getD now) }) ∧
  ((∃ c, (InMemoryCoilRepository.remove_coil coils cid dropt now).1 = some c) ↔
    ∃ c0 ∈ coils, c0.id = cid ∧ c0.date_removed = none) ∧
  ((InMemoryCoilRepository.remove_coil coils cid dropt now).1 = none →
    (InMemoryCoilRepository.remove_coil coils cid dropt now).2 = coils) ∧
  (InMemoryCoilRepository.remove_coil
    (InMemoryCoilRepository.remove_coil coils cid dropt now).2 cid dropt2 now2).1 = none ∧
  Functions.remove_coil coils cid now = InMemoryCoilRepository.remove_coil coils cid none now

/-- Concrete input for the C1 divergence: one coil added before the window and
removed inside it; window `[0, 0]`. -/
def cexC1 : List Coil :=
  [{ id := 1, length := 10, weight := 20, date_added := -1, date_removed := some 0 }]

/-- Concrete input for the C2 divergence. -/
def cexC2 : List Coil :=
  [{ id := 1, length := 7, weight := 9, date_added := -5, date_removed := some 0 }]

/-- Concrete input for the C4 divergence: coil 1 added inside the window and
still active, coil 2 added before the window and removed inside it. -/
def cexC4 : List Coil :=
  [{ id := 1, length := 10, weight := 20, date_added := 10, date_removed := none },
   { id := 2, length := 30, weight := 40, date_added := -5, date_removed := some 3 }]

/-- A well-timed two-step history: create at time 100, remove at time 150. -/
def stGood : RepoState :=
  removeOp (createOp { nextId := 1, coils := [] } 1 1 100) 1 (some 150) 200

/-- A back-dated two-step history: create at time 100, then remove with the
explicit timestamp 50, earlier than the creation time. -/
def stBad : RepoState :=
  removeOp (createOp { nextId := 1, coils := [] } 1 1 100) 1 (some 50) 60

example : pySum [1, 2, 3] = 6 := by norm_num [pySum]

example : pyMax [1, 3, 2] = some 3 := by norm_num [pyMax]

example : pyMaxBy DayStat.count [⟨0, 2, 1⟩, ⟨1, 2, 5⟩] = some ⟨0, 2, 1⟩ := by
  norm_num [pyMaxBy, foldMaxBy]

example : dayList 0 0 = [0] := by
  rw [dayList, dayList]
  norm_num [DAY]

/-! Helper lemmas about the day loop and the truncation to midnight. -/

theorem dayList_pos {cur e : Int} (h : cur ≤ e) :
    dayList cur e = cur :: dayList (cur + DAY) e := by
  rw [dayList]
  simp [h]

theorem dayList_neg {cur e : Int} (h : ¬ cur ≤ e) : dayList cur e = [] := by
  rw [dayList]
  simp [h]

theorem mem_dayList {cur e d : Int} :
    d ∈ dayList cur e ↔ ∃ k : ℕ, d = cur + DAY * k ∧ d ≤ e := by
  by_cases h : cur ≤ e
  · rw [dayList_pos h, List.mem_cons, @mem_dayList (cur + DAY) e d]
    constructor
    · rintro (rfl | ⟨k, rfl, hk⟩)
      · exact ⟨0, by simp, h⟩
      · refine ⟨k + 1, by push_cast; ring, by simpa using hk⟩
    · rintro ⟨k, rfl, hk⟩
      match k with
      | 0 => exact Or.inl (by simp)
      | k + 1 => exact Or.inr ⟨k, by push_cast; ring, hk⟩
  · rw [dayList_neg h]
    simp only [List.not_mem_nil, false_iff, not_exists, not_and]
    rintro k rfl
    have hk : (0 : Int) ≤ DAY * k := by simp only [DAY]; positivity
    omega
termination_by (e + DAY - cur).toNat
decreasing_by simp only [DAY] at *; omega

theorem dayList_ne_nil {cur e : Int} (h : cur ≤ e) : dayList cur e ≠ [] := by
  rw [dayList_pos h]
  simp

theorem DAY_pos : (0 : Int) < DAY := by norm_num [DAY]

theorem truncDay_le (t : Int) : truncDay t ≤ t := by
  have h := Int.fmod_nonneg' t DAY_pos
  simp only [truncDay]
  omega

theorem lt_truncDay_add (t : Int) : t < truncDay t + DAY := by
  have h := Int.fmod_lt_of_pos t DAY_pos
  simp only [truncDay]
  omega

theorem truncDay_midnight (t : Int) : ∃ m : Int, truncDay t = DAY * m := by
  refine ⟨t.fdiv DAY, ?_⟩
  have h := Int.fmod_add_fdiv t DAY
  simp only [truncDay]
  linarith

/-! Helper lemmas about the Python fold-based extrema. -/

theorem foldMaxBy_first {α β : Type} [LinearOrder β] (k : α → β) (xs : List α) (x : α) :
    ∃ l₁ l₂, x :: xs = l₁ ++ foldMaxBy k x xs :: l₂ ∧
      (∀ y ∈ l₁, k y < k (foldMaxBy k x xs)) ∧
      (∀ y ∈ x :: xs, k y ≤ k (foldMaxBy k x xs)) := by
  induction xs generalizing x with
  | nil =>
    refine ⟨[], [], rfl, by simp, ?_⟩
    intro y hy
    rcases List.mem_cons.mp hy with rfl | hy
    · exact le_refl _
    · simp at hy
  | cons a xs ih =>
    by_cases hxa : k x < k a
    · have hfold : foldMaxBy k x (a :: xs) = foldMaxBy k a xs := by
        simp [foldMaxBy, hxa]
      obtain ⟨l₁, l₂, heq, hlt, hle⟩ := ih a
      have har : k a ≤ k (foldMaxBy k a xs) := hle a (by simp)
      rw [hfold]
      refine ⟨x :: l₁, l₂, by simp [heq], ?_, ?_⟩
      · intro y hy
        rcases List.mem_cons.mp hy with rfl | hy
        · exact lt_of_lt_of_le hxa har
        · exact hlt y hy
      · intro y hy
        rcases List.mem_cons.mp hy with rfl | hy
        · exact le_of_lt (lt_of_lt_of_le hxa har)
        · exact hle y hy
    · have hax : k a ≤ k x := not_lt.mp hxa
      have hfold : foldMaxBy k x (a :: xs) = foldMaxBy k x xs := by
        simp [foldMaxBy, hxa]
      obtain ⟨l₁, l₂, heq, hlt, hle⟩ := ih x
      rw [hfold]
      match l₁, heq, hlt with
      | [], heq, hlt =>
        have hx : foldMaxBy k x xs = x := by
          have h2 := congrArg List.head? heq
          simpa using h2.symm
        rw [hx] at hle ⊢
        refine ⟨[], a :: xs, rfl, by simp, ?_⟩
        intro y hy
        rcases List.mem_cons.mp hy with rfl | hy
        · exact le_refl _
        rcases List.mem_cons.mp hy with rfl | hy
        · exact hax
        · exact hle y (by simp [hy])
      | x₁ :: l₁, heq, hlt =>
        obtain ⟨hx₁, hxs⟩ : x = x₁ ∧ xs = l₁ ++ foldMaxBy k x xs :: l₂ := by
          simpa using heq
        subst hx₁
        have hxr : k x < k (foldMaxBy k x xs) := hlt x (by simp)
        refine ⟨x :: a :: l₁, l₂, ?_, ?_, ?_⟩
        · conv_lhs => rw [hxs]
          simp
        · intro y hy
          rcases List.mem_cons.mp hy with rfl | hy
          · exact hxr
          rcases List.mem_cons.mp hy with rfl | hy
          · exact lt_of_le_of_lt hax hxr
          · exact hlt y (by simp [hy])
        · intro y hy
          rcases List.mem_cons.mp hy with rfl | hy
          · exact hle y (by simp)
          rcases List.mem_cons.mp hy with rfl | hy
          · exact le_of_lt (lt_of_le_of_lt hax hxr)
          · exact hle y (by simp [hy])

theorem foldMinBy_first {α β : Type} [LinearOrder β] (k : α → β) (xs : List α) (x : α) :
    ∃ l₁ l₂, x :: xs = l₁ ++ foldMinBy k x xs :: l₂ ∧
      (∀ y ∈ l₁, k (foldMinBy k x xs) < k y) ∧
      (∀ y ∈ x :: xs, k (foldMinBy k x xs) ≤ k y) := by
  induction xs generalizing x with
  | nil =>
    refine ⟨[], [], rfl, by simp, ?_⟩
    intro y hy
    rcases List.mem_cons.mp hy with rfl | hy
    · exact le_refl _
    · simp at hy
  | cons a xs ih =>
    by_cases hax : k a < k x
    · have hfold : foldMinBy k x (a :: xs) = foldMinBy k a xs := by
        simp [foldMinBy, hax]
      obtain ⟨l₁, l₂, heq, hlt, hle⟩ := ih a
      have har : k (foldMinBy k a xs) ≤ k a := hle a (by simp)
      rw [hfold]
      refine ⟨x :: l₁, l₂, by simp [heq], ?_, ?_⟩
      · intro y hy
        rcases List.mem_cons.mp hy with rfl | hy
        · exact lt_of_le_of_lt har hax
        · exact hlt y hy
      · intro y hy
        rcases List.mem_cons.mp hy with rfl | hy
        · exact le_of_lt (lt_of_le_of_lt har hax)
        · exact hle y hy
    · have hxa : k x ≤ k a := not_lt.mp hax
      have hfold : foldMinBy k x (a :: xs) = foldMinBy k x xs := by
        simp [foldMinBy, hax]
      obtain ⟨l₁, l₂, heq, hlt, hle⟩ := ih x
      rw [hfold]
      match l₁, heq, hlt with
      | [], heq, hlt =>
        have hx : foldMinBy k x xs = x := by
          have h2 := congrArg List.head? heq
          simpa using h2.symm
        rw [hx] at hle ⊢
        refine ⟨[], a :: xs, rfl, by simp, ?_⟩
        intro y hy
        rcases List.mem_cons.mp hy with rfl | hy
        · exact le_refl _
        rcases List.mem_cons.mp hy with rfl | hy
        · exact hxa
        · exact hle y (by simp [hy])
      | x₁ :: l₁, heq, hlt =>
        obtain ⟨hx₁, hxs⟩ : x = x₁ ∧ xs = l₁ ++ foldMinBy k x xs :: l₂ := by
          simpa using heq
        subst hx₁
        have hxr : k (foldMinBy k x xs) < k x := hlt x (by simp)
        refine ⟨x :: a :: l₁, l₂, ?_, ?_, ?_⟩
        · conv_lhs => rw [hxs]
          simp
        · intro y hy
          rcases List.mem_cons.mp hy with rfl | hy
          · exact hxr
          rcases List.mem_cons.mp hy with rfl | hy
          · exact lt_of_lt_of_le hxr hxa
          · exact hlt y (by simp [hy])
        · intro y hy
          rcases List.mem_cons.mp hy with rfl | hy
          · exact hle y (by simp)
          rcases List.mem_cons.mp hy with rfl | hy
          · exact le_of_lt (lt_of_lt_of_le hxr hxa)
          · exact hle y (by simp [hy])

theorem pyMax_eq_pyMaxBy_id (l : List ℚ) : pyMax l = pyMaxBy id l := by
  cases l <;> simp [pyMax, pyMaxBy, foldMaxBy, id]

theorem pyMin_eq_pyMinBy_id (l : List ℚ) : pyMin l = pyMinBy id l := by
  cases l <;> simp [pyMin, pyMinBy, foldMinBy, id]

theorem pyMax_spec {l : List ℚ} {m : ℚ} (h : pyMax l = some m) :
    m ∈ l ∧ ∀ y ∈ l, y ≤ m := by
  match l, h with
  | x :: xs, h =>
    rw [pyMax_eq_pyMaxBy_id] at h
    simp only [pyMaxBy, Option.some.injEq] at h
    obtain ⟨l₁, l₂, heq, -, hle⟩ := foldMaxBy_first id xs x
    subst h
    exact ⟨by rw [heq]; simp, hle⟩

theorem pyMin_spec {l : List ℚ} {m : ℚ} (h : pyMin l = some m) :
    m ∈ l ∧ ∀ y ∈ l, m ≤ y := by
  match l, h with
  | x :: xs, h =>
    rw [pyMin_eq_pyMinBy_id] at h
    simp only [pyMinBy, Option.some.injEq] at h
    obtain ⟨l₁, l₂, heq, -, hle⟩ := foldMinBy_first id xs x
    subst h
    exact ⟨by rw [heq]; simp, hle⟩

theorem pySum_eq_sum (l : List ℚ) : pySum l = l.sum := by
  have key : ∀ (l : List ℚ) (a : ℚ), l.foldl (· + ·) a = a + l.sum := by
    intro l
    induction l with
    | nil => simp
    | cons x xs ih => intro a; simp [ih, add_assoc]
  simpa [pySum] using key l 0

theorem sqlSum_getD (l : List ℚ) : (sqlSum l).getD 0 = pySum l := by
  cases l <;> simp [sqlSum, pySum]

/-! Bridges between the SQL-side and in-memory-side filter predicates. -/

theorem sqlIsRelevant_eq (s e : Int) (c : Coil) :
    sqlIsRelevant s e c = isRelevant s e c := by
  cases h : c.date_removed <;>
    simp [sqlIsRelevant, isRelevant, addedInWindow, removedInWindow, h, Bool.or_comm]

theorem sqlIsActiveAt_eq (d : Int) (c : Coil) : sqlIsActiveAt d c = isActiveAt d c := by
  cases h : c.date_removed <;>
    simp [sqlIsActiveAt, isActiveAt, h, Bool.or_comm]

theorem Functions.daysStats_eq (coils : List Coil) (s e : Int) :
    Functions.daysStats coils s e = InMemoryCoilRepository.daysStats coils s e := by
  unfold Functions.daysStats InMemoryCoilRepository.daysStats
  refine List.map_congr_left fun d _ => ?_
  have hfilter : coils.filter (sqlIsActiveAt d) = coils.filter (isActiveAt d) :=
    List.filter_congr fun c _ => sqlIsActiveAt_eq d c
  rw [hfilter, sqlSum_getD]

/-! Closed forms for the two branches of each statistics implementation. -/

theorem inmem_stats_nil {coils : List Coil} {s e : Int}
    (h : relevantCoils coils s e = []) :
    InMemoryCoilRepository.get_statistics coils s e =
      some { added_count := addedCount coils s e,
             removed_count := removedCount coils s e,
             avg_length := none, avg_weight := none,
             max_length := none, min_length := none,
             max_weight := none, min_weight := none,
             total_weight := none, max_time_diff := none, min_time_diff := none,
             day_max_count := none, day_min_count := none,
             day_max_weight := none, day_min_weight := none } := by
  unfold InMemoryCoilRepository.get_statistics
  rw [h]

theorem inmem_stats_cons {coils : List Coil} {s e : Int} {r : Coil} {rs : List Coil}
    (h : relevantCoils coils s e = r :: rs) :
    InMemoryCoilRepository.get_statistics coils s e =
      some { added_count := addedCount coils s e,
             removed_count := removedCount coils s e,
             avg_length :=
               some (pySum ((r :: rs).map Coil.length) / (((r :: rs).map Coil.length).length : ℚ)),
             avg_weight :=
               some (pySum ((r :: rs).map Coil.weight) / (((r :: rs).map Coil.weight).length : ℚ)),
             max_length := pyMax ((r :: rs).map Coil.length),
             min_length := pyMin ((r :: rs).map Coil.length),
             max_weight := pyMax ((r :: rs).map Coil.weight),
             min_weight := pyMin ((r :: rs).map Coil.weight),
             total_weight := some (pySum ((r :: rs).map Coil.weight)),
             max_time_diff :=
               pyMax ((r :: rs).filterMap fun c => c.date_removed.map (timeDiffSecs c)),
             min_time_diff :=
               pyMin ((r :: rs).filterMap fun c => c.date_removed.map (timeDiffSecs c)),
             day_max_count :=
               (pyMaxBy DayStat.count (InMemoryCoilRepository.daysStats coils s e)).map DayStat.date,
             day_min_count :=
               (pyMinBy DayStat.count (InMemoryCoilRepository.daysStats coils s e)).map DayStat.date,
             day_max_weight :=
               (pyMaxBy DayStat.weight (InMemoryCoilRepository.daysStats coils s e)).map DayStat.date,
             day_min_weight :=
               (pyMinBy DayStat.weight (InMemoryCoilRepository.daysStats coils s e)).map DayStat.date } := by
  unfold InMemoryCoilRepository.get_statistics
  rw [h]
  simp only [List.map_cons, List.length_cons, pyDiv, pyMax, pyMin, Nat.succ_ne_zero,
    if_false, Option.bind_some, Option.some_bind, List.length_map]

theorem sql_stats_added_zero {coils : List Coil} {s e : Int}
    (h : addedCount coils s e = 0) :
    Functions.get_statistics coils s e = emptyStats := by
  unfold Functions.get_statistics
  rw [h]
  rfl

theorem sql_stats_added_pos {coils : List Coil} {s e : Int}
    (h : addedCount coils s e ≠ 0) :
    Functions.get_statistics coils s e =
      { added_count := addedCount coils s e,
        removed_count := removedCount coils s e,
        avg_length := sqlAvg ((coils.filter (sqlIsRelevant s e)).map Coil.length),
        avg_weight := sqlAvg ((coils.filter (sqlIsRelevant s e)).map Coil.weight),
        max_length := pyMax ((coils.filter (sqlIsRelevant s e)).map Coil.length),
        min_length := pyMin ((coils.filter (sqlIsRelevant s e)).map Coil.length),
        max_weight := pyMax ((coils.filter (sqlIsRelevant s e)).map Coil.weight),
        min_weight := pyMin ((coils.filter (sqlIsRelevant s e)).map Coil.weight),
        total_weight := sqlSum ((coils.filter (sqlIsRelevant s e)).map Coil.weight),
        max_time_diff :=
          pyMax ((coils.filter fun c => c.date_removed.isSome && addedInWindow s e c).filterMap
            fun c => c.date_removed.map (timeDiffSecs c)),
        min_time_diff :=
          pyMin ((coils.filter fun c => c.date_removed.isSome && addedInWindow s e c).filterMap
            fun c => c.date_removed.map (timeDiffSecs c)),
        day_max_count := (pyMaxBy DayStat.count (Functions.daysStats coils s e)).map DayStat.date,
        day_min_count := (pyMinBy DayStat.count (Functions.daysStats coils s e)).map DayStat.date,
        day_max_weight := (pyMaxBy DayStat.weight (Functions.daysStats coils s e)).map DayStat.date,
        day_min_weight := (pyMinBy DayStat.weight (Functions.daysStats coils s e)).map DayStat.date } := by
  unfold Functions.get_statistics
  rw [if_neg h]

theorem relevant_ne_nil_of_added {coils : List Coil} {s e : Int}
    (hpos : 0 < addedCount coils s e) : relevantCoils coils s e ≠ [] := by
  have hlen : coils.filter (addedInWindow s e) ≠ [] := by
    unfold addedCount at hpos
    exact List.ne_nil_of_length_pos hpos
  obtain ⟨c, hc⟩ := List.exists_mem_of_ne_nil _ hlen
  obtain ⟨hcm, hcw⟩ := List.mem_filter.mp hc
  have hrelc : isRelevant s e c = true := by
    simp only [addedInWindow, Bool.and_eq_true, decide_eq_true_eq] at hcw
    simp [isRelevant, hcw]
  intro hnil
  have hmem : c ∈ relevantCoils coils s e := List.mem_filter.mpr ⟨hcm, hrelc⟩
  rw [hnil] at hmem
  simp at hmem

/-- C10: the in-memory `get_statistics` is total.  Python division by zero and
`max`/`min` of an empty list are modelled as `none`, so `isSome` states that
the divisions and extrema over the relevant set run only when that set is
non-empty (guaranteed by the early return) and the day-field extrema are
guarded by the emptiness check. -/
theorem inmem_statistics_total (coils : List Coil) (s e : Int) :
    (InMemoryCoilRepository.get_statistics coils s e).isSome = true := by
  cases h : relevantCoils coils s e with
  | nil => rw [inmem_stats_nil h]; rfl
  | cons r rs => rw [inmem_stats_cons h]; rfl

/-- C3: on a window with `start <= end`, a positive `added_count` and hence a
non-empty relevant set, both implementations agree on the relevant set, and
the magnitude aggregates are the exact arithmetic means, extrema and total
weight over it. -/
theorem stats_aggregates_over_relevant_set (coils : List Coil) (s e : Int)
    (hse : s ≤ e) (hpos : 0 < addedCount coils s e) :
    AggregatesSpec coils s e := by
  have hne := relevant_ne_nil_of_added hpos
  have hfeq : coils.filter (sqlIsRelevant s e) = relevantCoils coils s e :=
    List.filter_congr fun c _ => sqlIsRelevant_eq s e c
  cases hrel : relevantCoils coils s e with
  | nil => exact absurd hrel hne
  | cons r rs =>
    unfold AggregatesSpec
    rw [hrel] at hfeq
    rw [hrel]
    obtain ⟨mxl, hmxl⟩ : ∃ m, pyMax ((r :: rs).map Coil.length) = some m := by
      simp [List.map_cons, pyMax]
    obtain ⟨mnl, hmnl⟩ : ∃ m, pyMin ((r :: rs).map Coil.length) = some m := by
      simp [List.map_cons, pyMin]
    obtain ⟨mxw, hmxw⟩ : ∃ m, pyMax ((r :: rs).map Coil.weight) = some m := by
      simp [List.map_cons, pyMax]
    obtain ⟨mnw, hmnw⟩ : ∃ m, pyMin ((r :: rs).map Coil.weight) = some m := by
      simp [List.map_cons, pyMin]
    refine ⟨by simp, hfeq, _, inmem_stats_cons hrel, ?_, ?_, ?_, ?_, ?_, ?_, ?_,
      ?_, ?_, ?_, ?_, ?_, ?_, ?_⟩
    · simp [pySum_eq_sum]
    · simp [pySum_eq_sum]
    · exact ⟨mxl, hmxl, (pyMax_spec hmxl).1, (pyMax_spec hmxl).2⟩
    · exact ⟨mnl, hmnl, (pyMin_spec hmnl).1, (pyMin_spec hmnl).2⟩
    · exact ⟨mxw, hmxw, (pyMax_spec hmxw).1, (pyMax_spec hmxw).2⟩
    · exact ⟨mnw, hmnw, (pyMin_spec hmnw).1, (pyMin_spec hmnw).2⟩
    · simp [pySum_eq_sum]
    · rw [sql_stats_added_pos (Nat.pos_iff_ne_zero.mp hpos)]
      simp [hfeq, sqlAvg, pySum_eq_sum]
    · rw [sql_stats_added_pos (Nat.pos_iff_ne_zero.mp hpos)]
      simp [hfeq, sqlAvg, pySum_eq_sum]
    · rw [sql_stats_added_pos (Nat.pos_iff_ne_zero.mp hpos)]
      simp [hfeq]
    · rw [sql_stats_added_pos (Nat.pos_iff_ne_zero.mp hpos)]
      simp [hfeq]
    · rw [sql_stats_added_pos (Nat.pos_iff_ne_zero.mp hpos)]
      simp [hfeq]
    · rw [sql_stats_added_pos (Nat.pos_iff_ne_zero.mp hpos)]
      simp [hfeq]
    · rw [sql_stats_added_pos (Nat.pos_iff_ne_zero.mp hpos)]
      simp [hfeq, sqlSum, pySum_eq_sum]

/-- C3 witness: one coil added at instant 0 with window `[0, 0]`. -/
theorem stats_aggregates_witness :
    (0 : Int) ≤ 0 ∧
    0 < addedCount [{ id := 1, length := 10, weight := 20, date_added := 0, date_removed := none }] 0 0 ∧
    AggregatesSpec [{ id := 1, length := 10, weight := 20, date_added := 0, date_removed := none }] 0 0 := by
  have hpos : 0 < addedCount [{ id := 1, length := 10, weight := 20, date_added := 0, date_removed := none }] 0 0 := by
    simp [addedCount, addedInWindow, List.filter]
  exact ⟨le_refl 0, hpos,
    stats_aggregates_over_relevant_set _ 0 0 (le_refl 0) hpos⟩

theorem pyMaxBy_first_spec {α β : Type} [LinearOrder β] (k : α → β) {l : List α}
    (h : l ≠ []) : ∃ x, pyMaxBy k l = some x ∧ FirstMaxBy k l x := by
  match l, h with
  | y :: ys, _ =>
    obtain ⟨l₁, l₂, heq, hlt, hle⟩ := foldMaxBy_first k ys y
    exact ⟨foldMaxBy k y ys, rfl, l₁, l₂, heq, hlt, hle⟩

theorem pyMinBy_first_spec {α β : Type} [LinearOrder β] (k : α → β) {l : List α}
    (h : l ≠ []) : ∃ x, pyMinBy k l = some x ∧ FirstMinBy k l x := by
  match l, h with
  | y :: ys, _ =>
    obtain ⟨l₁, l₂, heq, hlt, hle⟩ := foldMinBy_first k ys y
    exact ⟨foldMinBy k y ys, rfl, l₁, l₂, heq, hlt, hle⟩

theorem inmem_daysStats_ne_nil {coils : List Coil} {s e : Int} (hse : s ≤ e) :
    InMemoryCoilRepository.daysStats coils s e ≠ [] := by
  intro h
  unfold InMemoryCoilRepository.daysStats at h
  exact dayList_ne_nil ((truncDay_le s).trans hse) (List.map_eq_nil_iff.mp h)

/-- C5: for `start <= end` both implementations build the same daily series,
whose dates are exactly the days from the midnight of `start` through the
untruncated `end` in one-day steps, counting and weighing the coils of the
whole collection that are active at each instant. -/
theorem daily_series_spec (coils : List Coil) (s e : Int) (hse : s ≤ e) :
    DaySeriesSpec coils s e := by
  refine ⟨Functions.daysStats_eq coils s e, ?_, truncDay_midnight s, truncDay_le s,
    lt_truncDay_add s, fun d => mem_dayList, inmem_daysStats_ne_nil hse, ?_, ?_⟩
  · simp [InMemoryCoilRepository.daysStats, List.map_map, Function.comp_def]
  · intro x hx
    obtain ⟨d, hd, rfl⟩ := List.mem_map.mp hx
    exact ⟨rfl, pySum_eq_sum _⟩
  · intro d c
    cases h : c.date_removed <;> simp [isActiveAt, h]

/-- C5 witness: the empty collection with window `[0, 0]`. -/
theorem daily_series_witness : (0 : Int) ≤ 0 ∧ DaySeriesSpec [] 0 0 :=
  ⟨le_refl 0, daily_series_spec [] 0 0 (le_refl 0)⟩

/-- C6: with `start <= end` and a positive `added_count`, each of the four day
fields reports the date of the first day-series entry achieving the optimal
count or weight — first occurrence wins on ties — in both implementations. -/
theorem day_fields_first_optimum (coils : List Coil) (s e : Int)
    (hse : s ≤ e) (hpos : 0 < addedCount coils s e) :
    DayOptimumSpec coils s e := by
  have hne := relevant_ne_nil_of_added hpos
  cases hrel : relevantCoils coils s e with
  | nil => exact absurd hrel hne
  | cons r rs =>
    have hds := @inmem_daysStats_ne_nil coils s e hse
    obtain ⟨x1, hx1, hfm1⟩ := pyMaxBy_first_spec DayStat.count hds
    obtain ⟨x2, hx2, hfm2⟩ := pyMinBy_first_spec DayStat.count hds
    obtain ⟨x3, hx3, hfm3⟩ := pyMaxBy_first_spec DayStat.weight hds
    obtain ⟨x4, hx4, hfm4⟩ := pyMinBy_first_spec DayStat.weight hds
    refine ⟨_, inmem_stats_cons hrel, ⟨x1, hfm1, by simp [hx1], ?_⟩,
      ⟨x2, hfm2, by simp [hx2], ?_⟩, ⟨x3, hfm3, by simp [hx3], ?_⟩,
      ⟨x4, hfm4, by simp [hx4], ?_⟩⟩ <;>
    · rw [sql_stats_added_pos (Nat.pos_iff_ne_zero.mp hpos)]
      simp [Functions.daysStats_eq, hx1, hx2, hx3, hx4]

/-- C6 witness: one coil added at instant 0 with window `[0, 0]`. -/
theorem day_fields_witness :
    (0 : Int) ≤ 0 ∧
    0 < addedCount [{ id := 1, length := 2, weight := 3, date_added := 0, date_removed := none }] 0 0 ∧
    DayOptimumSpec [{ id := 1, length := 2, weight := 3, date_added := 0, date_removed := none }] 0 0 := by
  have hpos : 0 < addedCount [{ id := 1, length := 2, weight := 3, date_added := 0, date_removed := none }] 0 0 := by
    simp [addedCount, addedInWindow, List.filter]
  exact ⟨le_refl 0, hpos, day_fields_first_optimum _ 0 0 (le_refl 0) hpos⟩

theorem inmem_remove_no_active {coils : List Coil} {cid : Int} {dropt : Option Int}
    {now : Int} (h : ∀ c ∈ coils, c.id = cid → c.date_removed ≠ none) :
    InMemoryCoilRepository.remove_coil coils cid dropt now = (none, coils) := by
  induction coils with
  | nil => rfl
  | cons c rest ih =>
    unfold InMemoryCoilRepository.remove_coil
    rw [if_neg, ih fun c2 hc2 => h c2 (by simp [hc2])]
    rintro ⟨h1, h2⟩
    exact h c (by simp) h1 h2

theorem inmem_remove_some {coils : List Coil} {cid : Int} {dropt : Option Int}
    {now : Int} {c : Coil}
    (h : (InMemoryCoilRepository.remove_coil coils cid dropt now).1 = some c) :
    c.id = cid ∧ c.date_removed = some (dropt.getD now) ∧
    ∃ c0 ∈ coils, c0.id = cid ∧ c0.date_removed = none ∧
      c = { c0 with date_removed := some (dropt.getD now) } := by
  induction coils with
  | nil => simp [InMemoryCoilRepository.remove_coil] at h
  | cons c1 rest ih =>
    unfold InMemoryCoilRepository.remove_coil at h
    by_cases hc : c1.id = cid ∧ c1.date_removed = none
    · rw [if_pos hc] at h
      simp only [Option.some.injEq] at h
      subst h
      exact ⟨hc.1, rfl, c1, by simp, hc.1, hc.2, rfl⟩
    · rw [if_neg hc] at h
      obtain ⟨h1, h2, c0, hc0, h3⟩ := ih h
      exact ⟨h1, h2, c0, by simp [hc0], h3⟩

theorem inmem_remove_none_iff {coils : List Coil} {cid : Int} {dropt : Option Int}
    {now : Int} :
    (InMemoryCoilRepository.remove_coil coils cid dropt now).1 = none ↔
      ∀ c ∈ coils, c.id = cid → c.date_removed ≠ none := by
  induction coils with
  | nil => simp [InMemoryCoilRepository.remove_coil]
  | cons c1 rest ih =>
    unfold InMemoryCoilRepository.remove_coil
    by_cases hc : c1.id = cid ∧ c1.date_removed = none
    · rw [if_pos hc]
      simp only [List.mem_cons]
      constructor
      · intro h
        exact absurd h (by simp)
      · intro h
        exact absurd (h c1 (Or.inl rfl) hc.1) (by simp [hc.2])
    · rw [if_neg hc]
      simp only [List.mem_cons]
      rw [ih]
      constructor
      · intro h c2 hc2
        rcases hc2 with rfl | hc2
        · intro h1 h2
          exact hc ⟨h1, h2⟩
        · exact h c2 hc2
      · intro h c2 hc2
        exact h c2 (Or.inr hc2)

theorem inmem_remove_none_state {coils : List Coil} {cid : Int} {dropt : Option Int}
    {now : Int} (h : (InMemoryCoilRepository.remove_coil coils cid dropt now).1 = none) :
    (InMemoryCoilRepository.remove_coil coils cid dropt now).2 = coils := by
  rw [inmem_remove_no_active (inmem_remove_none_iff.mp h)]

theorem inmem_remove_twice {coils : List Coil} {cid : Int} {dropt : Option Int}
    {now : Int} {dropt2 : Option Int} {now2 : Int}
    (huniq : (coils.map Coil.id).Nodup) :
    (InMemoryCoilRepository.remove_coil
      (InMemoryCoilRepository.remove_coil coils cid dropt now).2 cid dropt2 now2).1 =
      none := by
  induction coils with
  | nil => rfl
  | cons c rest ih =>
    simp only [List.map_cons, List.nodup_cons, List.mem_map] at huniq
    obtain ⟨hnotin, hrest⟩ := huniq
    by_cases hc : c.id = cid ∧ c.date_removed = none
    · rw [show (InMemoryCoilRepository.remove_coil (c :: rest) cid dropt now).2 =
          { c with date_removed := some (dropt.getD now) } :: rest by
        unfold InMemoryCoilRepository.remove_coil
        rw [if_pos hc]]
      rw [inmem_remove_none_iff]
      intro c2 hc2
      rcases List.mem_cons.mp hc2 with rfl | hc2
      · intro _ h2
        simp at h2
      · intro h1 _
        exact hnotin ⟨c2, hc2, by rw [h1, ← hc.1]⟩
    · rw [show (InMemoryCoilRepository.remove_coil (c :: rest) cid dropt now).2 =
          c :: (InMemoryCoilRepository.remove_coil rest cid dropt now).2 by
        simp only [InMemoryCoilRepository.remove_coil]
        rw [if_neg hc]]
      simp only [InMemoryCoilRepository.remove_coil]
      rw [if_neg hc]
      exact ih hrest

theorem sql_remove_eq {coils : List Coil} {cid now : Int}
    (huniq : (coils.map Coil.id).Nodup) :
    Functions.remove_coil coils cid now =
      InMemoryCoilRepository.remove_coil coils cid none now := by
  induction coils with
  | nil => rfl
  | cons c rest ih =>
    simp only [List.map_cons, List.nodup_cons, List.mem_map] at huniq
    obtain ⟨hnotin, hrest⟩ := huniq
    unfold Functions.remove_coil InMemoryCoilRepository.remove_coil
    by_cases h1 : c.id = cid
    · by_cases h2 : c.date_removed = none
      · rw [if_pos h1, if_pos h2, if_pos ⟨h1, h2⟩]
        rfl
      · rw [if_pos h1, if_neg h2, if_neg fun hc => h2 hc.2]
        have hnone : InMemoryCoilRepository.remove_coil rest cid none now =
            (none, rest) := by
          refine inmem_remove_no_active fun c2 hc2 h3 _ => ?_
          exact hnotin ⟨c2, hc2, by rw [h3, ← h1]⟩
        rw [hnone]
    · rw [if_neg h1, if_neg fun hc => h1 hc.1, ih hrest]

/-- C7: `remove` returns the updated coil with `date_removed` newly set exactly
when an active coil with the id exists; an unknown or already-removed id yields
`None` with the state unchanged; a second removal of the same id returns
`None`; and the SQL-backed removal agrees with the in-memory one. -/
theorem remove_coil_contract (coils : List Coil) (cid : Int) (dropt : Option Int)
    (now : Int) (dropt2 : Option Int) (now2 : Int)
    (huniq : (coils.map Coil.id).Nodup) :
    RemoveSpec coils cid dropt now dropt2 now2 := by
  refine ⟨fun c h => inmem_remove_some h, ?_, fun h => inmem_remove_none_state h,
    inmem_remove_twice huniq, sql_remove_eq huniq⟩
  constructor
  · rintro ⟨c, hc⟩
    obtain ⟨-, -, c0, hc0, h1, h2, -⟩ := inmem_remove_some hc
    exact ⟨c0, hc0, h1, h2⟩
  · rintro ⟨c0, hc0, h1, h2⟩
    cases h : (InMemoryCoilRepository.remove_coil coils cid dropt now).1 with
    | none => exact absurd h2 (inmem_remove_none_iff.mp h c0 hc0 h1)
    | some c => exact ⟨c, rfl⟩

/-- C7 witness: a single active coil with id 1, removed with an explicit
timestamp, then removed again. -/
theorem remove_coil_witness :
    (([{ id := 1, length := 5, weight := 6, date_added := 0, date_removed := none }] : List Coil).map Coil.id).Nodup ∧
    RemoveSpec [{ id := 1, length := 5, weight := 6, date_added := 0, date_removed := none }] 1 (some 7) 9 none 11 := by
  have huniq : (([{ id := 1, length := 5, weight := 6, date_added := 0, date_removed := none }] : List Coil).map Coil.id).Nodup := by
    simp
  exact ⟨huniq, remove_coil_contract _ 1 (some 7) 9 none 11 huniq⟩

/-- C8: `list` returns exactly the coils satisfying every provided filter: each
provided range is an inclusive test on its field, filters compose with AND, a
provided `date_removed` range never matches an active coil, with no filters
every stored coil is returned, and the SQL-backed path agrees with the
in-memory one. -/
theorem get_coils_filters :
    (∀ (coils : List Coil) (ir : Option (Int × Int)) (wr lr : Option (ℚ × ℚ))
        (dar drr : Option (Int × Int)) (c : Coil),
      c ∈ InMemoryCoilRepository.get_coils coils ir wr lr dar drr ↔
        c ∈ coils ∧
        (∀ a b, ir = some (a, b) → a ≤ c.id ∧ c.id ≤ b) ∧
        (∀ a b, wr = some (a, b) → a ≤ c.weight ∧ c.weight ≤ b) ∧
        (∀ a b, lr = some (a, b) → a ≤ c.length ∧ c.length ≤ b) ∧
        (∀ a b, dar = some (a, b) → a ≤ c.date_added ∧ c.date_added ≤ b) ∧
        (∀ a b, drr = some (a, b) → ∃ rm, c.date_removed = some rm ∧ a ≤ rm ∧ rm ≤ b)) ∧
    (∀ coils : List Coil,
      InMemoryCoilRepository.get_coils coils none none none none none = coils) ∧
    (∀ (coils : List Coil) (ir : Option (Int × Int)) (wr lr : Option (ℚ × ℚ))
        (dar drr : Option (Int × Int)),
      Functions.get_coils coils ir wr lr dar drr =
        InMemoryCoilRepository.get_coils coils ir wr lr dar drr) := by
  refine ⟨?_, fun coils => rfl, fun coils ir wr lr dar drr => rfl⟩
  intro coils ir wr lr dar drr c
  unfold InMemoryCoilRepository.get_coils
  rcases ir with _ | ⟨a1, b1⟩ <;> rcases wr with _ | ⟨a2, b2⟩ <;>
    rcases lr with _ | ⟨a3, b3⟩ <;> rcases dar with _ | ⟨a4, b4⟩ <;>
    rcases drr with _ | ⟨a5, b5⟩ <;>
    cases hdr : c.date_removed <;>
    simp [List.mem_filter, hdr, and_assoc] <;>
    (intro _hc; constructor <;> (intro h; tauto))

theorem forall₂_mem_right {α β : Type} {R : α → β → Prop} {l : List α} {l2 : List β}
    (h : List.Forall₂ R l l2) : ∀ b ∈ l2, ∃ a ∈ l, R a b := by
  induction h with
  | nil => simp
  | cons hr _ ih =>
    intro b hb
    rcases List.mem_cons.mp hb with rfl | hb
    · exact ⟨_, by simp, hr⟩
    · obtain ⟨a, ha, har⟩ := ih b hb
      exact ⟨a, by simp [ha], har⟩

theorem remove_step_shape (coils : List Coil) (cid : Int) (dropt : Option Int)
    (now : Int) : RemoveStepShape coils cid dropt now := by
  unfold RemoveStepShape
  induction coils with
  | nil => exact List.Forall₂.nil
  | cons c rest ih =>
    by_cases hc : c.id = cid ∧ c.date_removed = none
    · rw [show (InMemoryCoilRepository.remove_coil (c :: rest) cid dropt now).2 =
          { c with date_removed := some (dropt.getD now) } :: rest by
        simp only [InMemoryCoilRepository.remove_coil]
        rw [if_pos hc]]
      exact List.Forall₂.cons (Or.inr ⟨hc.1, hc.2, rfl⟩)
        (List.forall₂_same.mpr fun x _ => Or.inl rfl)
    · rw [show (InMemoryCoilRepository.remove_coil (c :: rest) cid dropt now).2 =
          c :: (InMemoryCoilRepository.remove_coil rest cid dropt now).2 by
        simp only [InMemoryCoilRepository.remove_coil]
        rw [if_neg hc]]
      exact List.Forall₂.cons (Or.inl rfl) ih

/-- C9 (amended): over well-timed histories every removed coil satisfies
`date_removed >= date_added`; unconditionally, every removal step either leaves
a coil untouched or sets `date_removed` on the matching active coil exactly
once, never altering id, length, weight or `date_added`; and creation only
appends a fresh active coil.  (The unamended inequality fails when a removal
supplies an explicit timestamp earlier than `date_added`.) -/
theorem coil_lifecycle_invariants :
    (∀ st, ReachableOK st → ∀ c ∈ st.coils, ∀ rm : Int,
      c.date_removed = some rm → c.date_added ≤ rm) ∧
    (∀ (coils : List Coil) (cid : Int) (dropt : Option Int) (now : Int),
      RemoveStepShape coils cid dropt now) ∧
    (∀ (st : RepoState) (len wt : ℚ) (now : Int),
      (createOp st len wt now).coils = st.coils ++
        [{ id := st.nextId, length := len, weight := wt, date_added := now, date_removed := none }]) := by
  refine ⟨?_, remove_step_shape, fun st len wt now => rfl⟩
  intro st hok
  induction hok with
  | init => simp
  | create st2 len wt now _ ih =>
    intro c hc rm hrm
    simp only [createOp, List.mem_append, List.mem_singleton] at hc
    rcases hc with hc | rfl
    · exact ih c hc rm hrm
    · simp at hrm
  | remove st2 cid dropt now _ hguard ih =>
    intro c hc rm hrm
    simp only [removeOp] at hc
    obtain ⟨c0, hc0, hR⟩ :=
      forall₂_mem_right (remove_step_shape st2.coils cid dropt now) c hc
    rcases hR with rfl | ⟨hid, hnone, rfl⟩
    · exact ih c hc0 rm hrm
    · simp only [Option.some.injEq] at hrm
      rw [← hrm]
      exact hguard c0 hc0 hid hnone

/-- C9 counterexample: creating a coil at time 100 and removing it with the
explicit timestamp 50 yields a reachable state containing a coil with
`date_removed < date_added`, so the unguarded invariant of the claim fails. -/
theorem remove_backdate_counterexample :
    Reachable stBad ∧
    stBad.coils = [{ id := 1, length := 1, weight := 1, date_added := 100, date_removed := some 50 }] ∧
    ∃ c ∈ stBad.coils, ∃ rm : Int, c.date_removed = some rm ∧ rm < c.date_added := by
  have hcoils : stBad.coils =
      [{ id := 1, length := 1, weight := 1, date_added := 100, date_removed := some 50 }] := by
    simp [stBad, removeOp, createOp, InMemoryCoilRepository.remove_coil]
  refine ⟨Reachable.remove _ 1 (some 50) 60 (Reachable.create _ 1 1 100 Reachable.init),
    hcoils, { id := 1, length := 1, weight := 1, date_added := 100, date_removed := some 50 },
    by rw [hcoils]; simp, 50, rfl, by norm_num⟩

/-- C9 witness: the well-timed history `stGood` is guarded-reachable and its
single coil satisfies `date_removed >= date_added`. -/
theorem coil_lifecycle_witness :
    ReachableOK stGood ∧
    (∀ c ∈ stGood.coils, ∀ rm : Int, c.date_removed = some rm → c.date_added ≤ rm) := by
  have hok : ReachableOK stGood := by
    refine ReachableOK.remove _ 1 (some 150) 200
      (ReachableOK.create _ 1 1 100 ReachableOK.init) ?_
    intro c hc h1 h2
    simp only [createOp, List.nil_append, List.mem_singleton] at hc
    subst hc
    norm_num
  exact ⟨hok, coil_lifecycle_invariants.1 stGood hok⟩

/-- C1 (code bug): at the failing input — one coil added before the window and
removed inside it — the two statistics implementations disagree: the SQL path
returns the distinguished empty result because `added_count = 0`, while the
in-memory path, whose relevant set is non-empty, reports `removed_count = 1`
and present aggregates. -/
theorem statistics_implementations_diverge :
    InMemoryCoilRepository.get_statistics cexC1 0 0 ≠
      some (Functions.get_statistics cexC1 0 0) := by
  have hadd : addedCount cexC1 0 0 = 0 := by
    simp [cexC1, addedCount, addedInWindow, List.filter]
  have hrel : relevantCoils cexC1 0 0 =
      [{ id := 1, length := 10, weight := 20, date_added := -1, date_removed := some 0 }] := by
    simp [cexC1, relevantCoils, isRelevant, removedInWindow, List.filter]
  rw [inmem_stats_cons hrel, sql_stats_added_zero hadd]
  intro hEq
  have h2 := congrArg (fun o => Option.map CoilStats.removed_count o) hEq
  simp [emptyStats, removedCount, removedInWindow, cexC1, List.filter] at h2

/-- C2 (code bug): whenever `added_count = 0` the SQL path returns the
distinguished empty result, but the in-memory path does not: at the failing
input its relevant set is non-empty, so it reports the actual
`removed_count = 1` and a present `avg_length`. -/
theorem empty_branch_divergence :
    addedCount cexC2 0 0 = 0 ∧
    Functions.get_statistics cexC2 0 0 = emptyStats ∧
    ∃ st, InMemoryCoilRepository.get_statistics cexC2 0 0 = some st ∧
      st.removed_count = 1 ∧ st.avg_length = some 7 := by
  have hadd : addedCount cexC2 0 0 = 0 := by
    simp [cexC2, addedCount, addedInWindow, List.filter]
  have hrel : relevantCoils cexC2 0 0 =
      [{ id := 1, length := 7, weight := 9, date_added := -5, date_removed := some 0 }] := by
    simp [cexC2, relevantCoils, isRelevant, removedInWindow, List.filter]
  refine ⟨hadd, sql_stats_added_zero hadd, _, inmem_stats_cons hrel, ?_, ?_⟩
  · simp [cexC2, removedCount, removedInWindow, List.filter]
  · norm_num [pySum]

/-- C4 (code bug): the SQL time-diff query filters on `date_removed` present
and `date_added` in the window, not on the relevant set: at the failing input
the relevant set contains a removed coil, the in-memory path reports its
time diff, but the SQL path reports `None`. -/
theorem time_diff_divergence :
    0 < addedCount cexC4 0 10 ∧
    (relevantCoils cexC4 0 10).filterMap (fun c => c.date_removed) ≠ [] ∧
    (∃ st, InMemoryCoilRepository.get_statistics cexC4 0 10 = some st ∧
      st.max_time_diff = some (1 / 125000) ∧ st.min_time_diff = some (1 / 125000)) ∧
    (Functions.get_statistics cexC4 0 10).max_time_diff = none ∧
    (Functions.get_statistics cexC4 0 10).min_time_diff = none := by
  have hadd : addedCount cexC4 0 10 = 1 := by
    simp [cexC4, addedCount, addedInWindow, List.filter]
  have hrel : relevantCoils cexC4 0 10 =
      [{ id := 1, length := 10, weight := 20, date_added := 10, date_removed := none },
       { id := 2, length := 30, weight := 40, date_added := -5, date_removed := some 3 }] := by
    simp [cexC4, relevantCoils, isRelevant, removedInWindow, addedInWindow, List.filter]
  refine ⟨by rw [hadd]; norm_num, by rw [hrel]; simp [List.filterMap], ⟨_, inmem_stats_cons hrel, ?_, ?_⟩, ?_, ?_⟩
  · norm_num [List.filterMap, timeDiffSecs, pyMax]
  · norm_num [List.filterMap, timeDiffSecs, pyMin]
  · rw [sql_stats_added_pos (by rw [hadd]; norm_num)]
    simp [cexC4, addedInWindow, List.filter, List.filterMap, pyMax]
  · rw [sql_stats_added_pos (by rw [hadd]; norm_num)]
    simp [cexC4, addedInWindow, List.filter, List.filterMap, pyMin]
